import Mathlib

/-!
Shallow embedding of the BIP enumerator `src/ex7/bzfkocht/src/bip.c`.

Doubles are modelled as exact rationals (`ℚ`), the 32-bit unsigned
machine words of the enumerator as `ℕ` with explicit `% 2 ^ 32` where the
C code can overflow.  Fixed-size C arrays (`BIP_MAX_ROWS × BIP_MAX_COLS`)
become lists holding exactly the `rows × cols` region the code reads.
-/

namespace BipC

/-! ### Bit-level groundwork

Helper lemmas about `Nat` bitwise operations used to analyse the
Gray-code walk of `bip_enumerate` (`n & negn` isolates the lowest set
bit of `n`, successive words `x` follow the binary reflected Gray code).
-/

theorem testBit_bit_zero (a s : ℕ) (hs : s < 2) : (2 * a + s).testBit 0 = decide (s = 1) := by
  rw [Nat.testBit_zero]
  exact decide_eq_decide.mpr (by omega)

theorem testBit_bit_succ (a s : ℕ) (hs : s < 2) (i : ℕ) :
    (2 * a + s).testBit (i + 1) = a.testBit i := by
  rw [Nat.testBit_succ]
  congr 1
  omega

theorem bit_and_lt (s t : ℕ) (hs : s < 2) (ht : t < 2) : s &&& t < 2 := by
  interval_cases s <;> interval_cases t <;> decide

theorem bit_xor_lt (s t : ℕ) (hs : s < 2) (ht : t < 2) : s ^^^ t < 2 := by
  interval_cases s <;> interval_cases t <;> decide

/-- Decompose a bitwise `and` on the low bit: `(2a+s) &&& (2b+t) = 2(a &&& b) + (s &&& t)`
for bit values `s t < 2`. -/
theorem and_bit_decomp (a b s t : ℕ) (hs : s < 2) (ht : t < 2) :
    (2 * a + s) &&& (2 * b + t) = 2 * (a &&& b) + (s &&& t) := by
  apply Nat.eq_of_testBit_eq
  intro i
  cases i with
  | zero =>
    rw [Nat.testBit_and, testBit_bit_zero a s hs, testBit_bit_zero b t ht,
      testBit_bit_zero _ _ (bit_and_lt s t hs ht)]
    interval_cases s <;> interval_cases t <;> decide
  | succ i =>
    rw [Nat.testBit_and, testBit_bit_succ a s hs, testBit_bit_succ b t ht,
      testBit_bit_succ _ _ (bit_and_lt s t hs ht), Nat.testBit_and]

/-- Decompose a bitwise `xor` on the low bit: `(2a+s) ^^^ (2b+t) = 2(a ^^^ b) + (s ^^^ t)`
for bit values `s t < 2`. -/
theorem xor_bit_decomp (a b s t : ℕ) (hs : s < 2) (ht : t < 2) :
    (2 * a + s) ^^^ (2 * b + t) = 2 * (a ^^^ b) + (s ^^^ t) := by
  apply Nat.eq_of_testBit_eq
  intro i
  cases i with
  | zero =>
    rw [Nat.testBit_xor, testBit_bit_zero a s hs, testBit_bit_zero b t ht,
      testBit_bit_zero _ _ (bit_xor_lt s t hs ht)]
    interval_cases s <;> interval_cases t <;> decide
  | succ i =>
    rw [Nat.testBit_xor, testBit_bit_succ a s hs, testBit_bit_succ b t ht,
      testBit_bit_succ _ _ (bit_xor_lt s t hs ht), Nat.testBit_xor]

/-- A number and its complement inside `t` bits share no set bit. -/
theorem and_compl_two_pow (t : ℕ) : ∀ a, a < 2 ^ t → a &&& (2 ^ t - 1 - a) = 0 := by
  induction t with
  | zero =>
    intro a ha
    interval_cases a
    decide
  | succ t ih =>
    intro a ha
    have hpow : 2 ^ (t + 1) = 2 * 2 ^ t := by rw [Nat.pow_succ]; ring
    have hq : a / 2 < 2 ^ t := by omega
    have ha2 : a = 2 * (a / 2) + a % 2 := by omega
    have hb2 : 2 ^ (t + 1) - 1 - a = 2 * (2 ^ t - 1 - a / 2) + (1 - a % 2) := by omega
    calc a &&& (2 ^ (t + 1) - 1 - a)
        = (2 * (a / 2) + a % 2) &&& (2 * (2 ^ t - 1 - a / 2) + (1 - a % 2)) := by
          rw [← ha2, ← hb2]
      _ = 2 * (a / 2 &&& (2 ^ t - 1 - a / 2)) + (a % 2 &&& (1 - a % 2)) :=
          and_bit_decomp _ _ _ _ (by omega) (by omega)
      _ = 0 := by
          rw [ih _ hq]
          have h2 : a % 2 = 0 ∨ a % 2 = 1 := by omega
          rcases h2 with h2 | h2 <;> rw [h2] <;> decide

/-- Lowest set bit of a natural number (`0` for `0`); the value the C
enumerator extracts as `updatemask = n & negn`. -/
def lowBit (n : ℕ) : ℕ :=
  if n % 2 = 1 then 1
  else if n = 0 then 0
  else 2 * lowBit (n / 2)
termination_by n
decreasing_by
  simp_wf
  omega

theorem lowBit_zero : lowBit 0 = 0 := by rw [lowBit]; simp

theorem lowBit_odd {n : ℕ} (h : n % 2 = 1) : lowBit n = 1 := by
  rw [lowBit, if_pos h]

theorem lowBit_even {n : ℕ} (h0 : n ≠ 0) (h : n % 2 = 0) : lowBit n = 2 * lowBit (n / 2) := by
  rw [lowBit, if_neg (by omega), if_neg h0]

theorem lowBit_pos {n : ℕ} (h : 0 < n) : 0 < lowBit n := by
  induction n using Nat.strong_induction_on with
  | _ n ih =>
    rcases Nat.even_or_odd n with he | ho
    · have h2 : n % 2 = 0 := Nat.even_iff.mp he
      rw [lowBit_even (by omega) h2]
      have := ih (n / 2) (by omega) (by omega)
      omega
    · rw [lowBit_odd (Nat.odd_iff.mp ho)]
      omega

theorem lowBit_le {n : ℕ} (h : 0 < n) : lowBit n ≤ n := by
  induction n using Nat.strong_induction_on with
  | _ n ih =>
    rcases Nat.even_or_odd n with he | ho
    · have h2 : n % 2 = 0 := Nat.even_iff.mp he
      rw [lowBit_even (by omega) h2]
      have := ih (n / 2) (by omega) (by omega)
      omega
    · rw [lowBit_odd (Nat.odd_iff.mp ho)]
      omega

/-- The lowest set bit is a power of two: the bit set in it is set in `n`
and every lower bit of `n` is clear. -/
theorem lowBit_spec {n : ℕ} (h : 0 < n) :
    ∃ j, lowBit n = 2 ^ j ∧ n.testBit j = true ∧ ∀ i < j, n.testBit i = false := by
  induction n using Nat.strong_induction_on with
  | _ n ih =>
    rcases Nat.even_or_odd n with he | ho
    · have h2 : n % 2 = 0 := Nat.even_iff.mp he
      obtain ⟨j, hj1, hj2, hj3⟩ := ih (n / 2) (by omega) (by omega)
      refine ⟨j + 1, ?_, ?_, ?_⟩
      · rw [lowBit_even (by omega) h2, hj1, Nat.pow_succ]; ring
      · rw [Nat.testBit_succ]; exact hj2
      · intro i hi
        cases i with
        | zero => simp only [Nat.testBit_zero]; simp [h2]
        | succ i => rw [Nat.testBit_succ]; exact hj3 i (by omega)
    · have h2 : n % 2 = 1 := Nat.odd_iff.mp ho
      exact ⟨0, lowBit_odd h2, by simp [Nat.testBit_zero, h2], by omega⟩

/-- Key identity behind the Gray-code walk: for `0 < n < 2^c` the masked
two's-complement negation `n &&& (2^c - n)` is exactly the lowest set bit
of `n` (the C code's `updatemask = n & negn` with `negn = 2^cols - n`). -/
theorem and_two_pow_sub_eq_lowBit : ∀ n, ∀ c, 0 < n → n < 2 ^ c → n &&& (2 ^ c - n) = lowBit n := by
  intro n
  induction n using Nat.strong_induction_on with
  | _ n ih =>
    intro c hn hnc
    have hc : c ≠ 0 := by
      rintro rfl
      simp at hnc
      omega
    obtain ⟨c', rfl⟩ : ∃ c', c = c' + 1 := ⟨c - 1, by omega⟩
    have hpow : 2 ^ (c' + 1) = 2 * 2 ^ c' := by rw [Nat.pow_succ]; ring
    rcases Nat.even_or_odd n with he | ho
    · have h2 : n % 2 = 0 := Nat.even_iff.mp he
      have hsplit : 2 ^ (c' + 1) - n = 2 * (2 ^ c' - n / 2) + 0 := by omega
      have hn2 : n = 2 * (n / 2) + 0 := by omega
      calc n &&& (2 ^ (c' + 1) - n)
          = (2 * (n / 2) + 0) &&& (2 * (2 ^ c' - n / 2) + 0) := by rw [← hn2, ← hsplit]
        _ = 2 * (n / 2 &&& (2 ^ c' - n / 2)) + 0 := and_bit_decomp _ _ _ _ (by omega) (by omega)
        _ = 2 * lowBit (n / 2) := by
            rw [ih (n / 2) (by omega) c' (by omega) (by omega)]; omega
        _ = lowBit n := (lowBit_even (by omega) h2).symm
    · have h2 : n % 2 = 1 := Nat.odd_iff.mp ho
      have hlt : n / 2 < 2 ^ c' := by omega
      have hsplit : 2 ^ (c' + 1) - n = 2 * (2 ^ c' - 1 - n / 2) + 1 := by omega
      have hn2 : n = 2 * (n / 2) + 1 := by omega
      calc n &&& (2 ^ (c' + 1) - n)
          = (2 * (n / 2) + 1) &&& (2 * (2 ^ c' - 1 - n / 2) + 1) := by rw [← hn2, ← hsplit]
        _ = 2 * (n / 2 &&& (2 ^ c' - 1 - n / 2)) + (1 &&& 1) :=
            and_bit_decomp _ _ _ _ (by omega) (by omega)
        _ = 1 := by rw [and_compl_two_pow c' _ hlt]; decide
        _ = lowBit n := (lowBit_odd h2).symm

/-- `n ^^^ (n - 1)` sets exactly the bits up to and including the lowest set bit. -/
theorem xor_pred (n : ℕ) (h : 0 < n) : n ^^^ (n - 1) = 2 * lowBit n - 1 := by
  induction n using Nat.strong_induction_on with
  | _ n ih =>
    rcases Nat.even_or_odd n with he | ho
    · have h2 : n % 2 = 0 := Nat.even_iff.mp he
      have hn2 : n = 2 * (n / 2) + 0 := by omega
      have hpred : n - 1 = 2 * (n / 2 - 1) + 1 := by omega
      have hrec := ih (n / 2) (by omega) (by omega)
      have hpos := lowBit_pos (n := n / 2) (by omega)
      calc n ^^^ (n - 1) = (2 * (n / 2) + 0) ^^^ (2 * (n / 2 - 1) + 1) := by rw [← hn2, ← hpred]
        _ = 2 * (n / 2 ^^^ (n / 2 - 1)) + (0 ^^^ 1) := xor_bit_decomp _ _ _ _ (by omega) (by omega)
        _ = 2 * (2 * lowBit (n / 2) - 1) + 1 := by rw [hrec, Nat.zero_xor]
        _ = 2 * lowBit n - 1 := by rw [lowBit_even (by omega) h2]; omega
    · have h2 : n % 2 = 1 := Nat.odd_iff.mp ho
      have hn2 : n = 2 * (n / 2) + 1 := by omega
      have hpred : n - 1 = 2 * (n / 2) + 0 := by omega
      calc n ^^^ (n - 1) = (2 * (n / 2) + 1) ^^^ (2 * (n / 2) + 0) := by rw [← hn2, ← hpred]
        _ = 2 * (n / 2 ^^^ n / 2) + (1 ^^^ 0) := xor_bit_decomp _ _ _ _ (by omega) (by omega)
        _ = 1 := by rw [Nat.xor_self, Nat.xor_zero]
        _ = 2 * lowBit n - 1 := by rw [lowBit_odd h2]

/-- Halving distributes over `xor`. -/
theorem xor_div_two (a b : ℕ) : (a ^^^ b) / 2 = a / 2 ^^^ b / 2 := by
  apply Nat.eq_of_testBit_eq
  intro i
  rw [Nat.testBit_div_two, Nat.testBit_xor, Nat.testBit_xor,
    Nat.testBit_div_two, Nat.testBit_div_two]

/-- Binary reflected Gray code, the sequence of assignment words visited
by `bip_enumerate`: `gray t = t ^^^ (t >> 1)`. -/
def gray (t : ℕ) : ℕ := t ^^^ (t >>> 1)

theorem gray_zero : gray 0 = 0 := rfl

theorem shiftRight_one_eq (n : ℕ) : n >>> 1 = n / 2 := rfl

/-- Consecutive Gray-code words differ exactly in the lowest set bit of
the step counter. -/
theorem gray_xor_pred (t : ℕ) (h : 0 < t) : gray t ^^^ gray (t - 1) = lowBit t := by
  obtain ⟨j, hj, -, -⟩ := lowBit_spec h
  have hd : t ^^^ (t - 1) = 2 ^ (j + 1) - 1 := by
    rw [xor_pred t h, hj, Nat.pow_succ]
    omega
  have key : gray t ^^^ gray (t - 1) = (t ^^^ (t - 1)) ^^^ ((t ^^^ (t - 1)) / 2) := by
    unfold gray
    rw [shiftRight_one_eq, shiftRight_one_eq, xor_div_two]
    have h1 : ∀ a b c d : ℕ, (a ^^^ b) ^^^ (c ^^^ d) = (a ^^^ c) ^^^ (b ^^^ d) := by
      intro a b c d
      rw [Nat.xor_assoc, Nat.xor_assoc]
      congr 1
      rw [← Nat.xor_assoc, ← Nat.xor_assoc, Nat.xor_comm b c]
    exact h1 t (t / 2) (t - 1) ((t - 1) / 2)
  rw [key, hd, hj]
  have hdiv : (2 ^ (j + 1) - 1) / 2 = 2 ^ j - 1 := by
    have : 2 ^ (j + 1) = 2 * 2 ^ j := by rw [Nat.pow_succ]; ring
    have : 1 ≤ 2 ^ j := Nat.one_le_two_pow
    omega
  rw [hdiv]
  apply Nat.eq_of_testBit_eq
  intro i
  rw [Nat.testBit_xor, Nat.testBit_two_pow_sub_one, Nat.testBit_two_pow_sub_one,
    Nat.testBit_two_pow]
  by_cases h1 : i < j
  · simp [h1, Nat.lt_succ_of_lt h1]
    omega
  · by_cases h2 : i = j
    · subst h2
      simp [h1, Nat.lt_succ_self]
    · simp [h1, (by omega : ¬i < j + 1)]
      omega

/-- One Gray-code step: flipping the lowest set bit of `t` in `gray (t-1)`
yields `gray t`. -/
theorem gray_succ_eq (t : ℕ) (h : 0 < t) : gray t = gray (t - 1) ^^^ lowBit t := by
  have := gray_xor_pred t h
  have h2 : (gray t ^^^ gray (t - 1)) ^^^ gray (t - 1) = lowBit t ^^^ gray (t - 1) := by
    rw [this]
  rw [Nat.xor_assoc, Nat.xor_self, Nat.xor_zero] at h2
  rw [h2, Nat.xor_comm]

/-- Inverse of the Gray code (prefix xor). -/
def ungray (g : ℕ) : ℕ :=
  if g = 0 then 0 else g ^^^ ungray (g / 2)
termination_by g
decreasing_by
  simp_wf
  omega

theorem ungray_gray : ∀ t, ungray (gray t) = t := by
  intro t
  induction t using Nat.strong_induction_on with
  | _ t ih =>
    by_cases h0 : t = 0
    · subst h0
      rw [gray_zero, ungray]
      simp
    · have hg0 : gray t ≠ 0 := by
        intro hg
        have : t = t >>> 1 := by
          have := Nat.xor_eq_zero.mp hg
          omega
        rw [shiftRight_one_eq] at this
        omega
      rw [ungray, if_neg hg0]
      have hhalf : gray t / 2 = gray (t / 2) := by
        unfold gray
        rw [shiftRight_one_eq, shiftRight_one_eq, xor_div_two, Nat.div_div_eq_div_mul]
      rw [hhalf, ih (t / 2) (by omega)]
      unfold gray
      rw [shiftRight_one_eq, Nat.xor_assoc, Nat.xor_self, Nat.xor_zero]

theorem gray_injective : Function.Injective gray :=
  Function.LeftInverse.injective ungray_gray

theorem gray_lt_two_pow {t c : ℕ} (h : t < 2 ^ c) : gray t < 2 ^ c := by
  unfold gray
  exact Nat.xor_lt_two_pow h (by rw [shiftRight_one_eq]; omega)

/-! ### Data model

Embedding of `struct binary_program` (bip.c:36-53).  The fixed-capacity
C arrays hold meaningful data only in their `rows × cols` region; the
lists below are exactly that region.  `double` becomes `ℚ`. -/

/-- Equation sense, `typedef enum { LE = 0, GE = 1, EQ = 2 } Sense` (bip.h). -/
inductive Sense where
  | LE : Sense
  | GE : Sense
  | EQ : Sense
deriving DecidableEq

/-- The `binary_program` structure (bip.c:36-53): `ar` row-wise
coefficients, `rhs`, `sense`, and the preprocessed column-wise matrix
`ac` (list of `cols` columns, each of length `rows`) with reordered
right-hand side `rhs_ord` and equality count `equs`. -/
structure BIP where
  rows : ℕ
  cols : ℕ
  ar : List (List ℚ)
  rhs : List ℚ
  sense : List Sense
  equs : ℕ
  ac : List (List ℚ)
  rhs_ord : List ℚ
  min_coef_val : ℚ
  max_coef_val : ℚ

/-! ### Feasibility Oracle: `check_feasibility` (bip.c:525-552)

The C code first scans `k = 0 .. equs` while `r[k] == 0.0`, then (only
if the first scan completed) scans `k = equs .. rows` while
`r[k] <= 0.0`; it reports feasible iff the final `k` reached `rows`.
The scan loops are modelled with `takeWhile` over the visited index
ranges; row `k` of the residual array is `r.getD k 0`. -/

def check_feasibility (equs rows : ℕ) (r : List ℚ) : ℕ :=
  let k1 := ((List.range equs).takeWhile (fun k => decide (r.getD k 0 = 0))).length
  let k2 := if k1 = equs
    then equs + ((List.range' equs (rows - equs)).takeWhile (fun k => decide (r.getD k 0 ≤ 0))).length
    else k1
  if k2 < rows then 0 else 1

/-! ### Enumeration Engine: `bip_enumerate` (bip.c:558-641) -/

/-- The De Bruijn multiplier `#define DEBRUIJN32 0x077CB531U` (bip.c:32). -/
def DEBRUIJN32 : ℕ := 0x077CB531

/-- The lookup table `index32` (bip.c:562-566). -/
def index32 : List ℕ :=
  [0, 1, 28, 2, 29, 14, 24, 3, 30, 22, 20, 15, 25, 17, 4, 8,
   31, 27, 13, 23, 21, 19, 16, 7, 26, 12, 18, 6, 11, 5, 10, 9]

/-- De Bruijn bit-position lookup (bip.c:617):
`colidx = index32[(uint32_t)(updatemask * DEBRUIJN32) >> 27]`, the
32-bit multiplication overflow made explicit with `% 2 ^ 32`. -/
def deBruijnIdx (updatemask : ℕ) : ℕ :=
  index32.getD (((updatemask * DEBRUIJN32) % 2 ^ 32) >>> 27) 0

/-- Column `c` of the column-wise coefficient matrix, `bip->ac[colidx]`. -/
def column (bip : BIP) (c : ℕ) : List ℚ := bip.ac.getD c []

/-- The main enumeration loop `while (negn != 0) { ... }` (bip.c:611-639),
recursing on `negn` which the loop decrements once per iteration.  Each
iteration flips one bit of `x` and incrementally updates the residual
list; the returned trace records the state `(x, r)` after every flip,
in visit order (the feasibility check of each visit is applied to the
trace by `bip_enumerate` below).  `n` is a 32-bit counter, hence the
`% 2 ^ 32` on its increment. -/
def enumLoop (bip : BIP) : ℕ → ℕ → ℕ → List ℚ → List (ℕ × List ℚ)
  | 0, _, _, _ => []
  | negn + 1, x, n, r =>
    let updatemask := n &&& (negn + 1)
    let colidx := deBruijnIdx updatemask
    let x' := x ^^^ updatemask
    let modcol := column bip colidx
    let r' := if x' &&& updatemask ≠ 0
      then List.zipWith (· + ·) r modcol
      else List.zipWith (· - ·) r modcol
    (x', r') :: enumLoop bip negn x' ((n + 1) % 2 ^ 32) r'

/-- States visited by `bip_enumerate` (bip.c:558-641): the initial
`x = 0` with residual `r[k] = -rhs_ord[k]` (bip.c:587-588), followed by
the state after each bit flip.  With `cols = 0` the function returns
before visiting anything (bip.c:576-577).  The initial `negn` is
`1u << (cols-1)` followed by `negn += negn - 1` (bip.c:608-609). -/
def bip_enumerate_trace (bip : BIP) : List (ℕ × List ℚ) :=
  if bip.cols = 0 then []
  else
    let r0 := bip.rhs_ord.map (fun q => -q)
    let negn0 := (1 <<< (bip.cols - 1)) + ((1 <<< (bip.cols - 1)) - 1)
    (0, r0) :: enumLoop bip negn0 0 1 r0

/-- Number of feasible solutions found by `bip_enumerate`: the sum of
`check_feasibility` over every visited state (the C code accumulates
`sol_count += check_feasibility(...)` at the initial state and after
every flip). -/
def bip_enumerate (bip : BIP) : ℕ :=
  ((bip_enumerate_trace bip).map (fun p => check_feasibility bip.equs bip.rows p.2)).sum

/-- Residual vector recomputed from scratch at assignment word `x`:
row `k` holds `(Σ over bit positions c < cols set in x of ac[c][k]) - rhs_ord[k]`. -/
def residualSpec (bip : BIP) (x : ℕ) : List ℚ :=
  (List.range bip.rows).map (fun k =>
    (∑ c ∈ Finset.range bip.cols, if x.testBit c then (column bip c).getD k 0 else 0)
      - bip.rhs_ord.getD k 0)

/-- Well-formedness of a model as `bip_enumerate` requires it: the
column-wise matrix has `cols` columns of `rows` entries each and the
reordered right-hand side has `rows` entries (what `bip_read` +
`bip_preprocess` establish, cf. `bip_is_valid`). -/
def EnumWF (bip : BIP) : Prop :=
  bip.ac.length = bip.cols ∧ (∀ col ∈ bip.ac, col.length = bip.rows) ∧
    bip.rhs_ord.length = bip.rows

instance : DecidablePred EnumWF := fun bip => by
  unfold EnumWF
  infer_instance

/-! ### Correctness of the enumeration loop -/

/-- The De Bruijn lookup is the identity on single-bit masks below `2^32`. -/
theorem deBruijnIdx_pow : ∀ j < 32, deBruijnIdx (2 ^ j) = j := by decide

theorem column_length (bip : BIP) (hwf : EnumWF bip) {j : ℕ} (hj : j < bip.cols) :
    (column bip j).length = bip.rows := by
  obtain ⟨hac, hcol, -⟩ := hwf
  have hjl : j < bip.ac.length := by omega
  rw [column, List.getD_eq_getElem _ _ hjl]
  exact hcol _ (List.getElem_mem hjl)

theorem testBit_xor_pow_self (x j : ℕ) : (x ^^^ 2 ^ j).testBit j = !x.testBit j := by
  rw [Nat.testBit_xor, Nat.testBit_two_pow]
  simp

theorem testBit_xor_pow_ne (x j c : ℕ) (h : c ≠ j) :
    (x ^^^ 2 ^ j).testBit c = x.testBit c := by
  rw [Nat.testBit_xor, Nat.testBit_two_pow]
  have hne : j ≠ c := Ne.symm h
  simp [hne]

theorem residualSpec_length (bip : BIP) (x : ℕ) :
    (residualSpec bip x).length = bip.rows := by
  simp [residualSpec]

theorem residualSpec_getElem (bip : BIP) (x k : ℕ) (hk : k < bip.rows)
    (hlen : k < (residualSpec bip x).length) :
    (residualSpec bip x)[k] =
      (∑ c ∈ Finset.range bip.cols, if x.testBit c then (column bip c).getD k 0 else 0)
        - bip.rhs_ord.getD k 0 := by
  simp [residualSpec]

/-- Incremental residual update: adding (bit became set) or subtracting
(bit became cleared) column `j` turns the exact residual at `x` into the
exact residual at `x ^^^ 2^j`. -/
theorem residualSpec_update (bip : BIP) (hwf : EnumWF bip) {j : ℕ} (hj : j < bip.cols) (x : ℕ) :
    residualSpec bip (x ^^^ 2 ^ j) =
      if (x ^^^ 2 ^ j).testBit j
        then List.zipWith (· + ·) (residualSpec bip x) (column bip j)
        else List.zipWith (· - ·) (residualSpec bip x) (column bip j) := by
  have hcl := column_length bip hwf hj
  have hjr : j ∈ Finset.range bip.cols := Finset.mem_range.mpr hj
  have hsum : ∀ y : ℕ, ∀ k : ℕ,
      (∑ c ∈ Finset.range bip.cols, if y.testBit c then (column bip c).getD k 0 else 0) =
        (if y.testBit j then (column bip j).getD k 0 else 0) +
          ∑ c ∈ (Finset.range bip.cols).erase j,
            if y.testBit c then (column bip c).getD k 0 else 0 :=
    fun y k => (Finset.add_sum_erase _ _ hjr).symm
  have herase : ∀ k : ℕ,
      (∑ c ∈ (Finset.range bip.cols).erase j,
          if (x ^^^ 2 ^ j).testBit c then (column bip c).getD k 0 else 0) =
        ∑ c ∈ (Finset.range bip.cols).erase j,
          if x.testBit c then (column bip c).getD k 0 else 0 := by
    intro k
    apply Finset.sum_congr rfl
    intro c hc
    rw [testBit_xor_pow_ne x j c (Finset.ne_of_mem_erase hc)]
  by_cases hbit : (x ^^^ 2 ^ j).testBit j
  · have hxbit : x.testBit j = false := by
      have h2 := testBit_xor_pow_self x j
      rw [hbit] at h2
      cases hx : x.testBit j
      · rfl
      · rw [hx] at h2
        simp at h2
    rw [if_pos hbit]
    apply List.ext_getElem
    · simp [residualSpec_length, hcl]
    · intro k hk1 hk2
      have hkr : k < bip.rows := by rwa [residualSpec_length] at hk1
      rw [List.getElem_zipWith, residualSpec_getElem _ _ _ hkr (by rw [residualSpec_length]; exact hkr), residualSpec_getElem _ _ _ hkr (by rw [residualSpec_length]; exact hkr),
        hsum, hsum, herase, hbit, hxbit,
        List.getD_eq_getElem _ _ (by omega : k < (column bip j).length),
        if_pos rfl, if_neg (by simp)]
      ring
  · have hbitf : (x ^^^ 2 ^ j).testBit j = false := by
      cases hb : (x ^^^ 2 ^ j).testBit j
      · rfl
      · exact absurd hb hbit
    have hxbit : x.testBit j = true := by
      have h2 := testBit_xor_pow_self x j
      rw [hbitf] at h2
      cases hx : x.testBit j
      · rw [hx] at h2
        simp at h2
      · rfl
    rw [if_neg hbit]
    apply List.ext_getElem
    · simp [residualSpec_length, hcl]
    · intro k hk1 hk2
      have hkr : k < bip.rows := by rwa [residualSpec_length] at hk1
      rw [List.getElem_zipWith, residualSpec_getElem _ _ _ hkr (by rw [residualSpec_length]; exact hkr), residualSpec_getElem _ _ _ hkr (by rw [residualSpec_length]; exact hkr),
        hsum, hsum, herase, hbitf, hxbit,
        List.getD_eq_getElem _ _ (by omega : k < (column bip j).length),
        if_neg (by simp), if_pos rfl]
      ring

/-- Master loop invariant: entering the while loop with counter `n = t`,
`negn = 2^cols - t`, the current Gray word `x = gray (t-1)` and the
exact residual for it, the loop emits precisely the Gray-coded states
`gray t, gray (t+1), ...`, each paired with its exact residual. -/
theorem enumLoop_eq (bip : BIP) (hwf : EnumWF bip) (hc1 : 1 ≤ bip.cols) (hc : bip.cols ≤ 32) :
    ∀ negn t, 0 < t → t + negn = 2 ^ bip.cols →
      enumLoop bip negn (gray (t - 1)) (t % 2 ^ 32) (residualSpec bip (gray (t - 1))) =
        (List.range negn).map (fun i => (gray (t + i), residualSpec bip (gray (t + i)))) := by
  intro negn
  induction negn with
  | zero =>
    intro t ht htn
    simp [enumLoop]
  | succ m ih =>
    intro t ht htn
    have h232 : (2:ℕ) ^ bip.cols ≤ 2 ^ 32 := Nat.pow_le_pow_right (by norm_num) hc
    have hmod : t % 2 ^ 32 = t := Nat.mod_eq_of_lt (by omega)
    have hmask : t &&& (m + 1) = lowBit t := by
      have hm1 : m + 1 = 2 ^ bip.cols - t := by omega
      rw [hm1]
      exact and_two_pow_sub_eq_lowBit t bip.cols ht (by omega)
    obtain ⟨j, hj, -, -⟩ := lowBit_spec ht
    have hjle : 2 ^ j ≤ t := hj ▸ lowBit_le ht
    have hjc : j < bip.cols := by
      have : (2:ℕ) ^ j < 2 ^ bip.cols := by omega
      exact (Nat.pow_lt_pow_iff_right (by norm_num)).mp this
    have hgray : gray (t - 1) ^^^ 2 ^ j = gray t := by
      rw [← hj, ← gray_succ_eq t ht]
    rw [enumLoop]
    simp only [hmod, hmask, hj, hgray, deBruijnIdx_pow j (by omega)]
    have hsign : (gray t &&& 2 ^ j ≠ 0) = ((gray t).testBit j = true) := by
      rw [Nat.and_two_pow]
      cases hb : (gray t).testBit j <;> simp [hb]
    have hres : (if gray t &&& 2 ^ j ≠ 0
        then List.zipWith (· + ·) (residualSpec bip (gray (t - 1))) (column bip j)
        else List.zipWith (· - ·) (residualSpec bip (gray (t - 1))) (column bip j)) =
        residualSpec bip (gray t) := by
      rw [← hgray, residualSpec_update bip hwf hjc (gray (t - 1)), hgray]
      by_cases hb : (gray t).testBit j
      · rw [if_pos hb, if_pos (by rw [hsign]; exact hb)]
      · rw [if_neg hb, if_neg (by rw [hsign]; simpa using hb)]
    rw [hres]
    have ihapp := ih (t + 1) (by omega) (by omega)
    rw [(by omega : t + 1 - 1 = t)] at ihapp
    rw [ihapp, List.range_succ_eq_map]
    simp only [List.map_cons, List.map_map]
    congr 1
    apply List.map_congr_left
    intro i hi
    simp only [Function.comp_apply, Nat.succ_eq_add_one]
    rw [(by omega : t + (i + 1) = t + 1 + i)]

theorem residualSpec_zero (bip : BIP) (hwf : EnumWF bip) :
    residualSpec bip 0 = bip.rhs_ord.map (fun q => -q) := by
  obtain ⟨-, -, hrhs⟩ := hwf
  apply List.ext_getElem
  · simp [residualSpec_length, hrhs]
  · intro k hk1 hk2
    have hkr : k < bip.rows := by rwa [residualSpec_length] at hk1
    rw [residualSpec_getElem _ _ _ hkr (by rw [residualSpec_length]; exact hkr), List.getElem_map,
      List.getD_eq_getElem _ _ (by omega : k < bip.rhs_ord.length)]
    simp [Nat.testBit, Nat.zero_shiftRight]

/-- The full visit trace of `bip_enumerate` is the binary reflected Gray
code sequence, each word paired with its exactly recomputed residual. -/
theorem bip_enumerate_trace_eq (bip : BIP) (hwf : EnumWF bip) (hc1 : 1 ≤ bip.cols)
    (hc : bip.cols ≤ 32) :
    bip_enumerate_trace bip =
      (List.range (2 ^ bip.cols)).map (fun t => (gray t, residualSpec bip (gray t))) := by
  have hpow1 : (1:ℕ) ≤ 2 ^ (bip.cols - 1) := Nat.one_le_two_pow
  have hpows : (2:ℕ) ^ bip.cols = 2 * 2 ^ (bip.cols - 1) := by
    conv_lhs => rw [(by omega : bip.cols = (bip.cols - 1) + 1)]
    rw [Nat.pow_succ]
    ring
  have hnegn : (1 <<< (bip.cols - 1)) + ((1 <<< (bip.cols - 1)) - 1) = 2 ^ bip.cols - 1 := by
    rw [Nat.shiftLeft_eq, Nat.one_mul]
    omega
  have hr0 : bip.rhs_ord.map (fun q => -q) = residualSpec bip 0 :=
    (residualSpec_zero bip hwf).symm
  have happ := enumLoop_eq bip hwf hc1 hc (2 ^ bip.cols - 1) 1 (by omega) (by omega)
  rw [(by omega : (1:ℕ) - 1 = 0), (by omega : (1:ℕ) % 2 ^ 32 = 1), gray_zero] at happ
  have hfinal : (List.range (2 ^ bip.cols)).map (fun t => (gray t, residualSpec bip (gray t)))
      = (0, residualSpec bip 0) ::
        (List.range (2 ^ bip.cols - 1)).map
          (fun i => (gray (1 + i), residualSpec bip (gray (1 + i)))) := by
    conv_lhs => rw [(by omega : 2 ^ bip.cols = (2 ^ bip.cols - 1) + 1), List.range_succ_eq_map]
    simp only [List.map_cons, List.map_map, gray_zero]
    congr 1
    apply List.map_congr_left
    intro i hi
    simp only [Function.comp_apply, Nat.succ_eq_add_one]
    rw [Nat.add_comm i 1]
  rw [bip_enumerate_trace, if_neg (by omega)]
  show (0, bip.rhs_ord.map (fun q => -q)) ::
      enumLoop bip ((1 <<< (bip.cols - 1)) + ((1 <<< (bip.cols - 1)) - 1)) 0 1
        (bip.rhs_ord.map (fun q => -q)) = _
  rw [hnegn, hr0, happ, hfinal]

theorem visited_eq (bip : BIP) (hwf : EnumWF bip) (hc1 : 1 ≤ bip.cols) (hc : bip.cols ≤ 32) :
    (bip_enumerate_trace bip).map Prod.fst = (List.range (2 ^ bip.cols)).map gray := by
  rw [bip_enumerate_trace_eq bip hwf hc1 hc, List.map_map]
  rfl

theorem getD_map_gray_range {N i : ℕ} (hi : i < N) :
    ((List.range N).map gray).getD i 0 = gray i := by
  rw [List.getD_eq_getElem _ _ (by simpa using hi), List.getElem_map, List.getElem_range]

/-- A concrete well-formed model used to instantiate the universally
quantified claims: `cols = 2`, `rows = 1`, single constraint `1 1 = 1`. -/
def exampleBip : BIP where
  rows := 1
  cols := 2
  ar := [[1, 1]]
  rhs := [1]
  sense := [Sense.EQ]
  equs := 1
  ac := [[1], [1]]
  rhs_ord := [1]
  min_coef_val := -(10 ^ 15)
  max_coef_val := 10 ^ 15

/-- C1: for every model with `1 ≤ cols ≤ 32`, `bip_enumerate` visits
exactly `2^cols` assignments (trace length `2^cols`), each distinct
assignment exactly once (no duplicates, and every word below `2^cols`
appears), every two consecutively visited assignments differ in exactly
one bit (their xor is a power of two), and after the initial check of
`x = 0` the loop performs exactly `2^cols - 1` bit flips (the states
after the initial one number `2^cols - 1`). -/
theorem claim_C1_gray_enumeration (bip : BIP) (hwf : EnumWF bip)
    (hc1 : 1 ≤ bip.cols) (hc : bip.cols ≤ 32) :
    ((bip_enumerate_trace bip).map Prod.fst).length = 2 ^ bip.cols ∧
    ((bip_enumerate_trace bip).map Prod.fst).Nodup ∧
    (∀ y < 2 ^ bip.cols, y ∈ (bip_enumerate_trace bip).map Prod.fst) ∧
    (∀ i, i + 1 < 2 ^ bip.cols →
      ∃ j, ((bip_enumerate_trace bip).map Prod.fst).getD i 0 ^^^
            ((bip_enumerate_trace bip).map Prod.fst).getD (i + 1) 0 = 2 ^ j) ∧
    ((bip_enumerate_trace bip).drop 1).length = 2 ^ bip.cols - 1 := by
  have hvis := visited_eq bip hwf hc1 hc
  refine ⟨?_, ?_, ?_, ?_, ?_⟩
  · rw [hvis]
    simp
  · rw [hvis]
    exact (List.nodup_range _).map gray_injective
  · intro y hy
    have himg : Finset.image gray (Finset.range (2 ^ bip.cols)) =
        Finset.range (2 ^ bip.cols) := by
      apply Finset.eq_of_subset_of_card_le
      · intro z hz
        obtain ⟨t, ht, rfl⟩ := Finset.mem_image.mp hz
        exact Finset.mem_range.mpr (gray_lt_two_pow (Finset.mem_range.mp ht))
      · rw [Finset.card_image_of_injective _ gray_injective]
    have hmem : y ∈ Finset.image gray (Finset.range (2 ^ bip.cols)) := by
      rw [himg]
      exact Finset.mem_range.mpr hy
    obtain ⟨t, ht, hgt⟩ := Finset.mem_image.mp hmem
    rw [hvis]
    exact List.mem_map.mpr ⟨t, List.mem_range.mpr (Finset.mem_range.mp ht), hgt⟩
  · intro i hi
    rw [hvis, getD_map_gray_range (by omega), getD_map_gray_range (by omega)]
    have h := gray_xor_pred (i + 1) (by omega)
    rw [(by omega : i + 1 - 1 = i)] at h
    obtain ⟨j, hj, -, -⟩ := lowBit_spec (show 0 < i + 1 by omega)
    exact ⟨j, by rw [Nat.xor_comm, h, hj]⟩
  · rw [bip_enumerate_trace_eq bip hwf hc1 hc]
    simp

theorem claim_C1_witness :
    ((bip_enumerate_trace exampleBip).map Prod.fst).length = 2 ^ exampleBip.cols ∧
    ((bip_enumerate_trace exampleBip).map Prod.fst).Nodup ∧
    (∀ y < 2 ^ exampleBip.cols, y ∈ (bip_enumerate_trace exampleBip).map Prod.fst) ∧
    (∀ i, i + 1 < 2 ^ exampleBip.cols →
      ∃ j, ((bip_enumerate_trace exampleBip).map Prod.fst).getD i 0 ^^^
            ((bip_enumerate_trace exampleBip).map Prod.fst).getD (i + 1) 0 = 2 ^ j) ∧
    ((bip_enumerate_trace exampleBip).drop 1).length = 2 ^ exampleBip.cols - 1 :=
  claim_C1_gray_enumeration exampleBip (by decide) (by decide) (by decide)

/-- C2: at every step of `bip_enumerate` (initially at `x = 0` and after
each flip), the incrementally maintained residual satisfies
`r[k] = (Σ over bit positions c set in x of ac[c][k]) - rhs_ord[k]`
for every row `k`: it equals the residual recomputed from scratch by a
full dot product over the column-wise matrix. -/
theorem claim_C2_incremental_residuals (bip : BIP) (hwf : EnumWF bip)
    (hc1 : 1 ≤ bip.cols) (hc : bip.cols ≤ 32) :
    ∀ p ∈ bip_enumerate_trace bip, ∀ k < bip.rows,
      p.2.getD k 0 =
        (∑ c ∈ Finset.range bip.cols, if p.1.testBit c then (column bip c).getD k 0 else 0)
          - bip.rhs_ord.getD k 0 := by
  intro p hp k hk
  rw [bip_enumerate_trace_eq bip hwf hc1 hc] at hp
  obtain ⟨t, ht, rfl⟩ := List.mem_map.mp hp
  show (residualSpec bip (gray t)).getD k 0 = _
  rw [List.getD_eq_getElem _ _ (by rw [residualSpec_length]; exact hk),
    residualSpec_getElem _ _ _ hk (by rw [residualSpec_length]; exact hk)]

theorem claim_C2_witness :
    ((0 : ℕ), residualSpec exampleBip 0).2.getD 0 0 =
      (∑ c ∈ Finset.range exampleBip.cols,
          if ((0 : ℕ), residualSpec exampleBip 0).1.testBit c
          then (column exampleBip c).getD 0 0 else 0)
        - exampleBip.rhs_ord.getD 0 0 :=
  claim_C2_incremental_residuals exampleBip (by decide) (by decide) (by decide)
    ((0 : ℕ), residualSpec exampleBip 0)
    (by
      rw [bip_enumerate_trace_eq exampleBip (by decide) (by decide) (by decide)]
      exact List.mem_map.mpr ⟨0, by decide, by simp [gray_zero]⟩)
    0 (by decide)

/-- C3: for every `i < 32` the De Bruijn lookup maps the single-set-bit
mask `2^i = 1 << i` to its bit index:
`index32[((1u << i) * 0x077CB531) >> 27] = i` with the multiplication
taken modulo `2^32`, so the `colidx` computed from `updatemask` is
exactly the position of the unique set bit of `updatemask`. -/
theorem claim_C3_debruijn_lookup :
    ∀ i < 32, deBruijnIdx (1 <<< i) = i ∧
      index32.getD ((((1 <<< i) * DEBRUIJN32) % 2 ^ 32) >>> 27) 0 = i := by decide

theorem claim_C3_witness :
    deBruijnIdx (1 <<< 7) = 7 ∧
      index32.getD ((((1 <<< 7) * DEBRUIJN32) % 2 ^ 32) >>> 27) 0 = 7 :=
  claim_C3_debruijn_lookup 7 (by decide)

/-- C8: when `bip_enumerate` is called on a model with `cols = 0`, it
returns a feasible-solution count of 0 immediately: the visit trace is
empty (no assignment visited, hence no feasibility check and no reporter
invocation) and the returned count is 0. -/
theorem claim_C8_zero_cols (bip : BIP) (h : bip.cols = 0) :
    bip_enumerate_trace bip = [] ∧ bip_enumerate bip = 0 := by
  have ht : bip_enumerate_trace bip = [] := by rw [bip_enumerate_trace, if_pos h]
  refine ⟨ht, ?_⟩
  rw [bip_enumerate, ht]
  rfl

/-- A degenerate model with no columns, to instantiate C8. -/
def emptyBip : BIP where
  rows := 0
  cols := 0
  ar := []
  rhs := []
  sense := []
  equs := 0
  ac := []
  rhs_ord := []
  min_coef_val := -(10 ^ 15)
  max_coef_val := 10 ^ 15

theorem claim_C8_witness :
    bip_enumerate_trace emptyBip = [] ∧ bip_enumerate emptyBip = 0 :=
  claim_C8_zero_cols emptyBip (by decide)

/-- C10: the sequence of assignments visited by `bip_enumerate` is the
binary reflected Gray code: the word visited at step `n` is
`n ^^^ (n >> 1)` (in particular `x = 0` before any flip), and for
`n ≥ 1` the bit flipped at step `n` (the single set bit of
`updatemask = n & negn`) is the lowest set bit of `n`: the xor of the
consecutive visited words is `2^j` where bit `j` is set in `n` and all
lower bits of `n` are clear. -/
theorem claim_C10_gray_sequence (bip : BIP) (hwf : EnumWF bip)
    (hc1 : 1 ≤ bip.cols) (hc : bip.cols ≤ 32) :
    ∀ n < 2 ^ bip.cols,
      ((bip_enumerate_trace bip).map Prod.fst).getD n 0 = n ^^^ (n >>> 1) ∧
      (0 < n → ∃ j,
        ((bip_enumerate_trace bip).map Prod.fst).getD n 0 ^^^
            ((bip_enumerate_trace bip).map Prod.fst).getD (n - 1) 0 = 2 ^ j ∧
        n.testBit j = true ∧ ∀ i < j, n.testBit i = false) := by
  intro n hn
  have hvis := visited_eq bip hwf hc1 hc
  constructor
  · rw [hvis, getD_map_gray_range hn]
    rfl
  · intro hpos
    obtain ⟨j, hj, hbit, hlow⟩ := lowBit_spec hpos
    refine ⟨j, ?_, hbit, hlow⟩
    rw [hvis, getD_map_gray_range hn, getD_map_gray_range (by omega : n - 1 < 2 ^ bip.cols)]
    rw [gray_xor_pred n hpos, hj]

/-! ### Preprocessor: `bip_preprocess` (bip.c:153-240)

The C function reorders rows into the column-wise matrix `ac` and
`rhs_ord` with two passes over `r = 0 .. rows`: pass 1 copies equality
rows (counting them in `equs`), pass 2 copies `<=` rows unchanged and
`>=` rows negated, each pass appending at the running `row_cnt`.  It
then scales each reordered row by a power of ten. -/

/-- Row view of the raw model: `(ar[r], sense[r], rhs[r])` triples. -/
def rowList (bip : BIP) : List (List ℚ × Sense × ℚ) :=
  bip.ar.zip (bip.sense.zip bip.rhs)

/-- One reordering pass: loop over the rows, appending `g row` (when the
row's sense selects it) at the current `row_cnt`, i.e. at the end of the
accumulator. -/
def appendPass {β : Type} (g : (List ℚ × Sense × ℚ) → Option β)
    (rows : List (List ℚ × Sense × ℚ)) (acc : List β) : List β :=
  rows.foldl (fun acc row =>
    match g row with
    | some b => acc ++ [b]
    | none => acc) acc

/-- Pass 1 (bip.c:161-173): an equality row is copied unchanged. -/
def pass1Fn : (List ℚ × Sense × ℚ) → Option (List ℚ × ℚ) := fun row =>
  match row.2.1 with
  | Sense.EQ => some (row.1, row.2.2)
  | Sense.LE => none
  | Sense.GE => none

/-- Pass 2 (bip.c:176-201): a `<=` row is copied unchanged, a `>=` row
is copied with coefficients and rhs negated, an equality row is skipped. -/
def pass2Fn : (List ℚ × Sense × ℚ) → Option (List ℚ × ℚ) := fun row =>
  match row.2.1 with
  | Sense.LE => some (row.1, row.2.2)
  | Sense.GE => some (row.1.map (fun q => -q), -row.2.2)
  | Sense.EQ => none

/-- The reordered `(coefficients, rhs)` rows after the two passes. -/
def reorderRows (bip : BIP) : List (List ℚ × ℚ) :=
  appendPass pass2Fn (rowList bip) (appendPass pass1Fn (rowList bip) [])

/-- Fractional remainder as the C code measures it (bip.c:212):
`x = fabs(v) - floor(fabs(v))`. -/
def fracPart (q : ℚ) : ℚ := |q| - ⌊|q|⌋

/-- Bounded linear search computing `ceil(-log10 x)` for `0 < x < 1`
(bip.c:219): the least `k ≥ 1` with `x * 10^k ≥ 1`, which is exactly
`⌈-log10 x⌉` on that interval (`⌈-log10 x⌉ ≤ k ↔ 10^(-k) ≤ x`).  The
fuel (first argument) only needs to exceed the answer; `digitsNeeded`
supplies the denominator of `x`, which suffices since `x ≥ 1/x.den` and
`10^(x.den) ≥ x.den`. -/
def digitsNeededAux : ℕ → ℚ → ℕ
  | 0, _ => 1
  | fuel + 1, x => if 1 ≤ 10 * x then 1 else digitsNeededAux fuel (10 * x) + 1

def digitsNeeded (x : ℚ) : ℕ := digitsNeededAux x.den x

/-- Scale exponent of a row (bip.c:206-224): the maximum, over the
coefficients whose fractional remainder `x` is positive, of
`ceil(-log10 x)` (`scale` starts at 0 and is raised whenever a larger
per-coefficient exponent appears). -/
def rowScaleExp (a : List ℚ) : ℕ :=
  a.foldl (fun s q => if 0 < fracPart q then max s (digitsNeeded (fracPart q)) else s) 0

/-- Row scaling (bip.c:227-238): when the exponent is positive, multiply
every coefficient and the rhs of the row by `10^scale`. -/
def scaleRow (row : List ℚ × ℚ) : List ℚ × ℚ :=
  if 0 < rowScaleExp row.1
  then (row.1.map (fun q => q * 10 ^ rowScaleExp row.1), row.2 * 10 ^ rowScaleExp row.1)
  else row

/-- `bip_preprocess` (bip.c:153-240): reorder the rows (equalities
first, `>=` negated), count equalities, store the result column-wise in
`ac`/`rhs_ord`, then scale each reordered row. -/
def bip_preprocess (bip : BIP) : BIP :=
  let rows2 := (reorderRows bip).map scaleRow
  { bip with
    equs := (appendPass pass1Fn (rowList bip) []).length
    ac := (List.range bip.cols).map (fun c => rows2.map (fun row => row.1.getD c 0))
    rhs_ord := rows2.map Prod.snd }

/-! ### Overflow Guard: `bip_can_overflow` (bip.c:242-274) -/

/-- Per-row scan of `bip_can_overflow`: walk the coefficients keeping
running sums `row_max` of the positive and `row_min` of the negative
coefficients; report `true` (overflow) as soon as
`row_max >= max_coef_val - val` resp. `row_min <= min_coef_val - val`. -/
def row_can_overflow (maxv minv : ℚ) : List ℚ → ℚ → ℚ → Bool
  | [], _, _ => false
  | v :: rest, row_max, row_min =>
    if 0 < v then
      if maxv - v ≤ row_max then true
      else row_can_overflow maxv minv rest (row_max + v) row_min
    else if v < 0 then
      if row_min ≤ minv - v then true
      else row_can_overflow maxv minv rest row_max (row_min + v)
    else row_can_overflow maxv minv rest row_max row_min

/-- `bip_can_overflow` (bip.c:242-274): `true` iff some row's scan
reports an overflow (each row is checked independently, in order). -/
def bip_can_overflow (bip : BIP) : Bool :=
  bip.ar.any (fun row => row_can_overflow bip.max_coef_val bip.min_coef_val row 0 0)

/-- Sum of the positive coefficients of a row. -/
def posSum (l : List ℚ) : ℚ := (l.filter (fun q => decide (0 < q))).sum

/-- Sum of the negative coefficients of a row. -/
def negSum (l : List ℚ) : ℚ := (l.filter (fun q => decide (q < 0))).sum

/-! ### Preprocessor and Overflow Guard lemmas -/

theorem fracPart_eq_of_pos (q : ℚ) (hq : 0 < q) (n : ℤ) (h1 : (n:ℚ) ≤ q) (h2 : q < n + 1) :
    fracPart q = q - n := by
  rw [fracPart, abs_of_pos hq, Int.floor_eq_iff.mpr ⟨h1, h2⟩]

theorem fracPart_neg (q : ℚ) : fracPart (-q) = fracPart q := by
  rw [fracPart, fracPart, abs_neg]

theorem fracPart_intCast (n : ℤ) : fracPart (n : ℚ) = 0 := by
  rw [fracPart, ← Int.cast_abs, Int.floor_intCast, sub_self]

theorem fracPart_den_one {q : ℚ} (h : q.den = 1) : fracPart q = 0 := by
  have hq : q = (q.num : ℚ) := by
    rw [← Rat.num_div_den q, h]
    simp
  rw [hq, fracPart_intCast]

theorem digitsNeeded_eq_one {x : ℚ} (h : 1 ≤ 10 * x) : digitsNeeded x = 1 := by
  rw [digitsNeeded]
  obtain ⟨m, hm⟩ : ∃ m, x.den = m + 1 := ⟨x.den - 1, by have := x.pos; omega⟩
  rw [hm]
  simp [digitsNeededAux, h]

theorem rowScaleExp_eq_zero {a : List ℚ} (h : ∀ q ∈ a, fracPart q = 0) : rowScaleExp a = 0 := by
  have key : ∀ (l : List ℚ), (∀ q ∈ l, fracPart q = 0) → ∀ s : ℕ,
      l.foldl (fun s q => if 0 < fracPart q then max s (digitsNeeded (fracPart q)) else s) s = s := by
    intro l
    induction l with
    | nil => intro _ s; rfl
    | cons q l ih =>
      intro hl s
      rw [List.foldl_cons, hl q (by simp)]
      rw [if_neg (by norm_num)]
      exact ih (fun q hq => hl q (by simp [hq])) s
  exact key a h 0

theorem scaleRow_id {row : List ℚ × ℚ} (h : ∀ q ∈ row.1, fracPart q = 0) :
    scaleRow row = row := by
  rw [scaleRow, rowScaleExp_eq_zero h]
  simp

theorem appendPass_eq_filterMap {β : Type} (g : (List ℚ × Sense × ℚ) → Option β) :
    ∀ (l : List (List ℚ × Sense × ℚ)) (acc : List β),
      appendPass g l acc = acc ++ l.filterMap g := by
  intro l
  induction l with
  | nil => intro acc; simp [appendPass]
  | cons row l ih =>
    intro acc
    rw [appendPass, List.foldl_cons]
    cases hg : g row with
    | none =>
      rw [List.filterMap_cons, hg]
      exact ih acc
    | some b =>
      rw [List.filterMap_cons, hg]
      have h2 := ih (acc ++ [b])
      rw [List.append_assoc] at h2
      exact h2

theorem filterMap_fun_congr {α β : Type} (f g : α → Option β) :
    ∀ l : List α, (∀ a ∈ l, f a = g a) → l.filterMap f = l.filterMap g := by
  intro l
  induction l with
  | nil => intro _; rfl
  | cons a l ih =>
    intro h
    rw [List.filterMap_cons, List.filterMap_cons, h a (by simp), ih (fun a ha => h a (by simp [ha]))]

theorem pass1_length_eq_countP : ∀ l : List (List ℚ × Sense × ℚ),
    (l.filterMap pass1Fn).length = l.countP (fun row => decide (row.2.1 = Sense.EQ)) := by
  intro l
  induction l with
  | nil => rfl
  | cons row l ih =>
    rcases row with ⟨a, s, b⟩
    cases s <;> simp [pass1Fn, List.filterMap_cons, List.countP_cons, ih]

theorem getD_map_neg (l : List ℚ) (c : ℕ) :
    (l.map (fun q => -q)).getD c 0 = -(l.getD c 0) := by
  rw [List.getD_eq_getElem?_getD, List.getD_eq_getElem?_getD, List.getElem?_map]
  cases l[c]? <;> simp

/-- C4 as amended: after preprocessing (with integral coefficients, so
the scaling pass is the identity), `equs` is the number of equality rows
and `ac`/`rhs_ord` hold the rows in the order: all original equality
rows first (original relative order, values unchanged), then all the
remaining rows in their original relative order, with `<=` rows
unchanged and `>=` rows negated in both coefficients and rhs. -/
theorem claim_C4_row_reordering (bip : BIP)
    (hint : ∀ row ∈ rowList bip, ∀ q ∈ row.1, q.den = 1) :
    (bip_preprocess bip).equs =
      (rowList bip).countP (fun row => decide (row.2.1 = Sense.EQ)) ∧
    (bip_preprocess bip).rhs_ord =
      ((rowList bip).filterMap (fun row =>
        if row.2.1 = Sense.EQ then some row.2.2 else none)) ++
      ((rowList bip).filterMap (fun row =>
        match row.2.1 with
        | Sense.LE => some row.2.2
        | Sense.GE => some (-row.2.2)
        | Sense.EQ => none)) ∧
    (bip_preprocess bip).ac =
      (List.range bip.cols).map (fun c =>
        ((rowList bip).filterMap (fun row =>
          if row.2.1 = Sense.EQ then some (row.1.getD c 0) else none)) ++
        ((rowList bip).filterMap (fun row =>
          match row.2.1 with
          | Sense.LE => some (row.1.getD c 0)
          | Sense.GE => some (-(row.1.getD c 0))
          | Sense.EQ => none))) := by
  have hfrac : ∀ row ∈ reorderRows bip, ∀ q ∈ row.1, fracPart q = 0 := by
    intro row hrow q hq
    rw [reorderRows, appendPass_eq_filterMap, appendPass_eq_filterMap, List.nil_append] at hrow
    rcases List.mem_append.mp hrow with h1 | h1
    · obtain ⟨row0, hrow0, hpass⟩ := List.mem_filterMap.mp h1
      rcases row0 with ⟨a, s, b⟩
      cases s with
      | LE => exact absurd hpass (by simp [pass1Fn])
      | GE => exact absurd hpass (by simp [pass1Fn])
      | EQ =>
        simp only [pass1Fn] at hpass
        obtain rfl := Option.some_injective _ hpass
        exact fracPart_den_one (hint _ hrow0 q hq)
    · obtain ⟨row0, hrow0, hpass⟩ := List.mem_filterMap.mp h1
      rcases row0 with ⟨a, s, b⟩
      cases s with
      | LE =>
        simp only [pass2Fn] at hpass
        obtain rfl := Option.some_injective _ hpass
        exact fracPart_den_one (hint _ hrow0 q hq)
      | GE =>
        simp only [pass2Fn] at hpass
        obtain rfl := Option.some_injective _ hpass
        obtain ⟨q0, hq0, rfl⟩ := List.mem_map.mp hq
        rw [fracPart_neg]
        exact fracPart_den_one (hint _ hrow0 q0 hq0)
      | EQ => exact absurd hpass (by simp [pass2Fn])
  have hnoop : (reorderRows bip).map scaleRow = reorderRows bip := by
    have h1 : (reorderRows bip).map scaleRow = (reorderRows bip).map (fun row => row) :=
      List.map_congr_left (fun row hrow => scaleRow_id (hfrac row hrow))
    rw [h1, show (fun (row : List ℚ × ℚ) => row) = id from rfl, List.map_id]
  have hre : reorderRows bip = (rowList bip).filterMap pass1Fn ++ (rowList bip).filterMap pass2Fn := by
    rw [reorderRows, appendPass_eq_filterMap, appendPass_eq_filterMap, List.nil_append]
  refine ⟨?_, ?_, ?_⟩
  · show (appendPass pass1Fn (rowList bip) []).length = _
    rw [appendPass_eq_filterMap, List.nil_append, pass1_length_eq_countP]
  · show ((reorderRows bip).map scaleRow).map Prod.snd = _
    rw [hnoop, hre, List.map_append, List.map_filterMap, List.map_filterMap]
    congr 1
    · apply filterMap_fun_congr
      rintro ⟨a, s, b⟩ -
      cases s <;> simp [pass1Fn]
    · apply filterMap_fun_congr
      rintro ⟨a, s, b⟩ -
      cases s <;> simp [pass2Fn]
  · show (List.range bip.cols).map
        (fun c => ((reorderRows bip).map scaleRow).map (fun row => row.1.getD c 0)) = _
    rw [hnoop, hre]
    apply List.map_congr_left
    intro c _
    rw [List.map_append, List.map_filterMap, List.map_filterMap]
    congr 1
    · apply filterMap_fun_congr
      rintro ⟨a, s, b⟩ -
      cases s <;> simp [pass1Fn]
    · apply filterMap_fun_congr
      rintro ⟨a, s, b⟩ -
      cases s
      · rfl
      · show some ((a.map (fun q => -q)).getD c 0) = some (-(a.getD c 0))
        rw [getD_map_neg]
      · rfl

theorem claim_C4_row_reordering_witness :
    (bip_preprocess exampleBip).equs =
      (rowList exampleBip).countP (fun row => decide (row.2.1 = Sense.EQ)) ∧
    (bip_preprocess exampleBip).rhs_ord =
      ((rowList exampleBip).filterMap (fun row =>
        if row.2.1 = Sense.EQ then some row.2.2 else none)) ++
      ((rowList exampleBip).filterMap (fun row =>
        match row.2.1 with
        | Sense.LE => some row.2.2
        | Sense.GE => some (-row.2.2)
        | Sense.EQ => none)) ∧
    (bip_preprocess exampleBip).ac =
      (List.range exampleBip.cols).map (fun c =>
        ((rowList exampleBip).filterMap (fun row =>
          if row.2.1 = Sense.EQ then some (row.1.getD c 0) else none)) ++
        ((rowList exampleBip).filterMap (fun row =>
          match row.2.1 with
          | Sense.LE => some (row.1.getD c 0)
          | Sense.GE => some (-(row.1.getD c 0))
          | Sense.EQ => none))) :=
  claim_C4_row_reordering exampleBip (by
    intro row hrow q hq
    have hrl : rowList exampleBip = [([1, 1], Sense.EQ, 1)] := rfl
    rw [hrl, List.mem_singleton] at hrow
    subst hrow
    simp only [List.mem_cons, List.not_mem_nil, or_false] at hq
    rcases hq with rfl | rfl <;> exact Rat.den_one)

/-- A model with a `>=` row before a `<=` row: `1 x >= 3` then `2 x <= 4`. -/
def c4Bip : BIP where
  rows := 2
  cols := 1
  ar := [[1], [2]]
  rhs := [3, 4]
  sense := [Sense.GE, Sense.LE]
  equs := 0
  ac := []
  rhs_ord := []
  min_coef_val := -(10 ^ 15)
  max_coef_val := 10 ^ 15

/-- C4 as stated is false: the second reorder pass walks the rows once
in original order, handling `<=` and `>=` rows as it meets them, so the
`>=` row of `c4Bip` (negated, rhs `-3`) lands before the `<=` row
(rhs `4`); the claimed order (all `<=` rows before all `>=` rows) would
put rhs `4` first, i.e. `rhs_ord = [4, -3]`. -/
theorem claim_C4_counterexample :
    (bip_preprocess c4Bip).rhs_ord = [-3, 4] ∧
      (bip_preprocess c4Bip).rhs_ord ≠ [4, -3] := by
  have h : (bip_preprocess c4Bip).rhs_ord = [-3, 4] := by
    norm_num [bip_preprocess, reorderRows, rowList, appendPass, pass1Fn, pass2Fn, c4Bip,
      scaleRow, rowScaleExp, fracPart, digitsNeeded, digitsNeededAux]
  refine ⟨h, ?_⟩
  rw [h]
  intro hc
  have := List.head_eq_of_cons_eq hc
  norm_num at this

/-- C5 is the spec's reading of bip.c:204-239, which the code itself
contradicts: for the row with the single coefficient `0.15 = 3/20`, the
code computes `ceil(-log10(0.15)) = 1`, scales the row by `10^1` and
leaves the coefficient `1.5` — still fractional — although the
function's own documentation promises to scale all coefficients to
integers (the smallest adequate power of ten is `100`). -/
theorem claim_C5_scaling_bug :
    rowScaleExp [(3 : ℚ)/20] = 1 ∧
    scaleRow ([(3 : ℚ)/20], 1) = ([(3 : ℚ)/2], 10) ∧
    fracPart ((3 : ℚ)/2) = 1/2 ∧
    fracPart ((3 : ℚ)/20 * 10 ^ 2) = 0 := by
  have hf : fracPart ((3:ℚ)/20) = 3/20 := by
    rw [fracPart_eq_of_pos ((3:ℚ)/20) (by norm_num) 0 (by norm_num) (by norm_num)]
    norm_num
  have hexp : rowScaleExp [(3:ℚ)/20] = 1 := by
    simp only [rowScaleExp, List.foldl_cons, List.foldl_nil, hf]
    rw [if_pos (by norm_num), digitsNeeded_eq_one (by norm_num)]
    omega
  refine ⟨hexp, ?_, ?_, ?_⟩
  · simp only [scaleRow, hexp]
    norm_num
  · rw [fracPart_eq_of_pos ((3:ℚ)/2) (by norm_num) 1 (by norm_num) (by norm_num)]
    norm_num
  · rw [show (3:ℚ)/20 * 10 ^ 2 = ((15 : ℤ) : ℚ) by norm_num, fracPart_intCast]

/-! ### Overflow Guard claims -/

theorem posSum_cons_pos {q : ℚ} (hq : 0 < q) (l : List ℚ) : posSum (q :: l) = q + posSum l := by
  rw [posSum, List.filter_cons_of_pos (by simpa using hq), List.sum_cons, posSum]

theorem posSum_cons_nonpos {q : ℚ} (hq : ¬ 0 < q) (l : List ℚ) : posSum (q :: l) = posSum l := by
  rw [posSum, List.filter_cons_of_neg (by simpa using hq), posSum]

theorem negSum_cons_neg {q : ℚ} (hq : q < 0) (l : List ℚ) : negSum (q :: l) = q + negSum l := by
  rw [negSum, List.filter_cons_of_pos (by simpa using hq), List.sum_cons, negSum]

theorem negSum_cons_nonneg {q : ℚ} (hq : ¬ q < 0) (l : List ℚ) : negSum (q :: l) = negSum l := by
  rw [negSum, List.filter_cons_of_neg (by simpa using hq), negSum]

theorem posSum_nonneg : ∀ l : List ℚ, 0 ≤ posSum l := by
  intro l
  induction l with
  | nil => rw [posSum]; simp
  | cons q l ih =>
    by_cases hq : 0 < q
    · rw [posSum_cons_pos hq]
      linarith
    · rw [posSum_cons_nonpos hq]
      exact ih

theorem negSum_nonpos : ∀ l : List ℚ, negSum l ≤ 0 := by
  intro l
  induction l with
  | nil => rw [negSum]; simp
  | cons q l ih =>
    by_cases hq : q < 0
    · rw [negSum_cons_neg hq]
      linarith
    · rw [negSum_cons_nonneg hq]
      exact ih

/-- Characterization of the per-row overflow scan, generalized over the
running sums. -/
theorem row_can_overflow_iff (maxv minv : ℚ) :
    ∀ (l : List ℚ) (a b : ℚ), a < maxv → minv < b →
      (row_can_overflow maxv minv l a b = true ↔
        maxv ≤ a + posSum l ∨ b + negSum l ≤ minv) := by
  intro l
  induction l with
  | nil =>
    intro a b ha hb
    rw [row_can_overflow, posSum, negSum]
    simp only [List.filter_nil, List.sum_nil, add_zero]
    constructor
    · intro h
      exact absurd h (by simp)
    · intro h
      rcases h with h | h <;> linarith
  | cons v l ih =>
    intro a b ha hb
    rcases lt_trichotomy 0 v with hv | hv | hv
    · rw [row_can_overflow, if_pos hv, posSum_cons_pos hv, negSum_cons_nonneg (by linarith)]
      by_cases hov : maxv - v ≤ a
      · rw [if_pos hov]
        have := posSum_nonneg l
        constructor
        · intro _
          left
          linarith
        · intro _
          rfl
      · rw [if_neg hov]
        rw [ih (a + v) b (by linarith) hb]
        constructor
        · intro h
          rcases h with h | h
          · left; linarith
          · right; exact h
        · intro h
          rcases h with h | h
          · left; linarith
          · right; exact h
    · subst hv
      rw [row_can_overflow, if_neg (by linarith), if_neg (by linarith),
        posSum_cons_nonpos (by linarith), negSum_cons_nonneg (by linarith)]
      exact ih a b ha hb
    · rw [row_can_overflow, if_neg (by linarith), if_pos hv,
        posSum_cons_nonpos (by linarith), negSum_cons_neg hv]
      by_cases hov : b ≤ minv - v
      · rw [if_pos hov]
        have := negSum_nonpos l
        constructor
        · intro _
          right
          linarith
        · intro _
          rfl
      · rw [if_neg hov]
        rw [ih a (b + v) ha (by linarith)]
        constructor
        · intro h
          rcases h with h | h
          · left; exact h
          · right; linarith
        · intro h
          rcases h with h | h
          · left; exact h
          · right; linarith

/-- C6 as amended: `bip_can_overflow` reports an overflow for a row
exactly when the next coefficient would push the positive running sum
TO or past `max_coef_val`, or the negative running sum to or past
`min_coef_val` (the guard fires on `≥`/`≤`, not only strictly past);
equivalently, iff the row's positive-coefficient sum is `≥ max_coef_val`
or its negative-coefficient sum is `≤ min_coef_val`.  In particular a
row whose positive sum strictly exceeds the bound is rejected, and a row
whose positive sum is the bound minus one (negative sum above the lower
bound) is accepted. -/
theorem claim_C6_overflow_guard (bip : BIP)
    (hmax : 0 < bip.max_coef_val) (hmin : bip.min_coef_val < 0) :
    (bip_can_overflow bip = true ↔
      ∃ row ∈ bip.ar, bip.max_coef_val ≤ posSum row ∨ negSum row ≤ bip.min_coef_val) ∧
    (∀ row, bip.max_coef_val < posSum row →
      row_can_overflow bip.max_coef_val bip.min_coef_val row 0 0 = true) ∧
    (∀ row, posSum row = bip.max_coef_val - 1 → bip.min_coef_val < negSum row →
      row_can_overflow bip.max_coef_val bip.min_coef_val row 0 0 = false) := by
  have hrow : ∀ row : List ℚ,
      (row_can_overflow bip.max_coef_val bip.min_coef_val row 0 0 = true ↔
        bip.max_coef_val ≤ posSum row ∨ negSum row ≤ bip.min_coef_val) := by
    intro row
    have := row_can_overflow_iff bip.max_coef_val bip.min_coef_val row 0 0 hmax hmin
    rw [zero_add, zero_add] at this
    exact this
  refine ⟨?_, ?_, ?_⟩
  · rw [bip_can_overflow, List.any_eq_true]
    constructor
    · rintro ⟨row, hmem, hov⟩
      exact ⟨row, hmem, (hrow row).mp hov⟩
    · rintro ⟨row, hmem, hov⟩
      exact ⟨row, hmem, (hrow row).mpr hov⟩
  · intro row h
    exact (hrow row).mpr (Or.inl (by linarith))
  · intro row h1 h2
    have : ¬ (bip.max_coef_val ≤ posSum row ∨ negSum row ≤ bip.min_coef_val) := by
      push_neg
      constructor <;> linarith
    cases hb : row_can_overflow bip.max_coef_val bip.min_coef_val row 0 0
    · rfl
    · exact absurd ((hrow row).mp hb) this

theorem claim_C6_witness :
    (bip_can_overflow exampleBip = true ↔
      ∃ row ∈ exampleBip.ar,
        exampleBip.max_coef_val ≤ posSum row ∨ negSum row ≤ exampleBip.min_coef_val) ∧
    (∀ row, exampleBip.max_coef_val < posSum row →
      row_can_overflow exampleBip.max_coef_val exampleBip.min_coef_val row 0 0 = true) ∧
    (∀ row, posSum row = exampleBip.max_coef_val - 1 →
      exampleBip.min_coef_val < negSum row →
      row_can_overflow exampleBip.max_coef_val exampleBip.min_coef_val row 0 0 = false) :=
  claim_C6_overflow_guard exampleBip (by norm_num [exampleBip]) (by norm_num [exampleBip])

/-- C6 as stated is false at the row `[1, 10^15 - 1]` with the program's
bounds `±10^15`: the guard reports an overflow (at the second
coefficient `row_max = 1 ≥ max_coef_val - val = 1`), yet no running sum
is ever pushed strictly past a bound — the positive sum reaches exactly
`10^15` and there are no negative coefficients. -/
theorem claim_C6_counterexample :
    row_can_overflow (10 ^ 15) (-(10 ^ 15)) [1, 10 ^ 15 - 1] 0 0 = true ∧
    posSum [1, (10 : ℚ) ^ 15 - 1] = 10 ^ 15 ∧
    negSum [1, (10 : ℚ) ^ 15 - 1] = 0 ∧
    ¬((10 : ℚ) ^ 15 < posSum [1, (10 : ℚ) ^ 15 - 1] ∨
      negSum [1, (10 : ℚ) ^ 15 - 1] < -(10 ^ 15)) := by
  have h1 : posSum [1, (10 : ℚ) ^ 15 - 1] = 10 ^ 15 := by
    norm_num [posSum, List.filter]
  have h2 : negSum [1, (10 : ℚ) ^ 15 - 1] = 0 := by
    norm_num [negSum, List.filter]
  refine ⟨?_, h1, h2, ?_⟩
  · norm_num [row_can_overflow]
  · rw [h1, h2]
    push_neg
    constructor <;> norm_num

/-! ### Input loading: `process_line` (bip.c:282-390) and `bip_read` (bip.c:434-486)

Line splitting and `strtod` are external collaborators (splitline.c and
libc; the spec treats tokenizing as out of scope).  A field of a split
line is modelled as a token that either parses completely as a finite
number (`Tok.num v`) or does not (`Tok.sym s` — covering non-numeric
text, partial parses, NaN/infinity/ERANGE — keeping the raw text for
the sense-token comparison).  A line is its list of fields after
comment stripping; an input file is the list of its lines. -/

inductive LINE_MODE where
  | READ_ERROR : LINE_MODE
  | READ_COLS : LINE_MODE
  | READ_ROWS : LINE_MODE
  | READ_COEF : LINE_MODE
deriving DecidableEq

inductive Tok where
  | num : ℚ → Tok
  | sym : String → Tok
deriving DecidableEq

/-- Reading state threaded through `process_line`: the mode automaton
plus the `cols`/`rows`/`read_rows` counters and the rows stored so far
(the `ar`/`sense`/`rhs` arrays of the BIP being filled). -/
structure ReadState where
  mode : LINE_MODE
  cols : ℕ
  rows : ℕ
  read_rows : ℕ
  rowsAcc : List (List ℚ × Sense × ℚ)

/-- Sense-token recognition (bip.c:368-379): the raw field must be
`<=`, `>=`, `=` or `==`; a numeric field never matches. -/
def senseOf : Tok → Option Sense
  | Tok.sym s =>
    if s = "<=" then some Sense.LE
    else if s = ">=" then some Sense.GE
    else if s = "=" then some Sense.EQ
    else if s = "==" then some Sense.EQ
    else none
  | Tok.num _ => none

/-- Numeric-field check for coefficients and rhs (bip.c:351-359): the
field must parse completely as a finite number, not above
`max_coef_val` and not below `min_coef_val`. -/
def numOf (minv maxv : ℚ) : Tok → Option ℚ
  | Tok.num v => if v < minv ∨ maxv < v then none else some v
  | Tok.sym _ => none

/-- Count-field check (bip.c:306-314 for cols, 324-332 for rows): the
field must parse as a finite integral number with `1 ≤ v` and
`(int)v ≤ bound`. -/
def countOf (bound : ℕ) : Tok → Option ℕ
  | Tok.num v => if v.den = 1 ∧ 1 ≤ v ∧ v ≤ (bound : ℚ) then some v.num.toNat else none
  | Tok.sym _ => none

/-- Left-to-right parse of the `cols` coefficient fields (bip.c:347-365),
failing on the first bad field. -/
def parseCoeffs (minv maxv : ℚ) : List Tok → Option (List ℚ)
  | [] => some []
  | t :: ts =>
    match numOf minv maxv t, parseCoeffs minv maxv ts with
    | some v, some vs => some (v :: vs)
    | _, _ => none

/-- `process_line` (bip.c:282-390).  An empty (blank or comment) line
leaves the state unchanged; otherwise the line is interpreted according
to the current mode, with any detectable error switching to
`READ_ERROR`.  (On an error inside the coefficient loop the C code has
already stored the fields parsed so far into `bip->ar`; those stores
are dead — `bip_read` discards the model on `READ_ERROR` — so the
embedding leaves the state unchanged apart from the mode.) -/
def process_line (minv maxv : ℚ) (st : ReadState) (fields : List Tok) : ReadState :=
  if fields.length = 0 then st
  else
    match st.mode with
    | LINE_MODE.READ_ERROR => st
    | LINE_MODE.READ_COLS =>
      if fields.length ≠ 1 then { st with mode := LINE_MODE.READ_ERROR }
      else
        match countOf 32 (fields.getD 0 (Tok.sym "")) with
        | some c => { st with cols := c, mode := LINE_MODE.READ_ROWS }
        | none => { st with mode := LINE_MODE.READ_ERROR }
    | LINE_MODE.READ_ROWS =>
      if fields.length ≠ 1 then { st with mode := LINE_MODE.READ_ERROR }
      else
        match countOf 128 (fields.getD 0 (Tok.sym "")) with
        | some r => { st with rows := r, mode := LINE_MODE.READ_COEF }
        | none => { st with mode := LINE_MODE.READ_ERROR }
    | LINE_MODE.READ_COEF =>
      if st.rows ≤ st.read_rows then { st with mode := LINE_MODE.READ_ERROR }
      else if fields.length ≠ st.cols + 2 then { st with mode := LINE_MODE.READ_ERROR }
      else
        match parseCoeffs minv maxv (fields.take st.cols),
            senseOf (fields.getD st.cols (Tok.sym "")),
            numOf minv maxv (fields.getD (st.cols + 1) (Tok.sym "")) with
        | some coeffs, some sn, some b =>
          { st with read_rows := st.read_rows + 1,
                    rowsAcc := st.rowsAcc ++ [(coeffs, sn, b)] }
        | _, _, _ => { st with mode := LINE_MODE.READ_ERROR }

def initReadState : ReadState :=
  { mode := LINE_MODE.READ_COLS, cols := 0, rows := 0, read_rows := 0, rowsAcc := [] }

/-- The read loop of `bip_read` (bip.c:452-462): feed each line to
`process_line`; once the mode is `READ_ERROR` the loop stops, i.e. the
remaining lines are ignored. -/
def readFold (minv maxv : ℚ) (input : List (List Tok)) : ReadState :=
  input.foldl
    (fun st fs =>
      if st.mode = LINE_MODE.READ_ERROR then st else process_line minv maxv st fs)
    initReadState

/-- The raw BIP assembled from a completed read state. -/
def mkBIP (minv maxv : ℚ) (st : ReadState) : BIP :=
  { rows := st.rows, cols := st.cols,
    ar := st.rowsAcc.map (fun row => row.1),
    rhs := st.rowsAcc.map (fun row => row.2.2),
    sense := st.rowsAcc.map (fun row => row.2.1),
    equs := 0, ac := [], rhs_ord := [],
    min_coef_val := minv, max_coef_val := maxv }

/-- `bip_read` (bip.c:434-486) after the line loop: failure (`-1` in C,
`none` here) on a parse error, on premature EOF (`cols`/`rows` never
set or fewer data rows than declared), or when `bip_can_overflow`
fires; otherwise the `bip_preprocess`ed model.  The Overflow Guard and
the Preprocessor run only on the success path. -/
def bip_read (minv maxv : ℚ) (input : List (List Tok)) : Option BIP :=
  if (readFold minv maxv input).mode = LINE_MODE.READ_ERROR then none
  else if (readFold minv maxv input).cols = 0 ∨ (readFold minv maxv input).rows = 0 ∨
      (readFold minv maxv input).read_rows < (readFold minv maxv input).rows then none
  else if bip_can_overflow (mkBIP minv maxv (readFold minv maxv input)) then none
  else some (bip_preprocess (mkBIP minv maxv (readFold minv maxv input)))

theorem countOf_eq_none_iff (bound : ℕ) (t : Tok) :
    countOf bound t = none ↔
      (∃ s, t = Tok.sym s) ∨ ∃ v, t = Tok.num v ∧ ¬(v.den = 1 ∧ 1 ≤ v ∧ v ≤ (bound : ℚ)) := by
  cases t with
  | sym s => simp [countOf]
  | num v =>
    rw [countOf]
    by_cases h : v.den = 1 ∧ 1 ≤ v ∧ v ≤ (bound : ℚ)
    · rw [if_pos h]
      simp [h]
    · rw [if_neg h]
      exact iff_of_true rfl (Or.inr ⟨v, rfl, h⟩)

theorem numOf_eq_none_iff (minv maxv : ℚ) (t : Tok) :
    numOf minv maxv t = none ↔
      (∃ s, t = Tok.sym s) ∨ ∃ v, t = Tok.num v ∧ (v < minv ∨ maxv < v) := by
  cases t with
  | sym s => simp [numOf]
  | num v =>
    rw [numOf]
    by_cases h : v < minv ∨ maxv < v
    · rw [if_pos h]
      exact iff_of_true rfl (Or.inr ⟨v, rfl, h⟩)
    · rw [if_neg h]
      simp [h]

theorem senseOf_eq_none_iff (t : Tok) :
    senseOf t = none ↔
      (∃ v, t = Tok.num v) ∨
        ∃ s, t = Tok.sym s ∧ s ≠ "<=" ∧ s ≠ ">=" ∧ s ≠ "=" ∧ s ≠ "==" := by
  cases t with
  | num v => simp [senseOf]
  | sym s =>
    rw [senseOf]
    by_cases h1 : s = "<="
    · simp [h1]
    · rw [if_neg h1]
      by_cases h2 : s = ">="
      · simp [h2]
      · rw [if_neg h2]
        by_cases h3 : s = "="
        · simp [h3]
        · rw [if_neg h3]
          by_cases h4 : s = "=="
          · simp [h4]
          · rw [if_neg h4]
            exact iff_of_true rfl (Or.inr ⟨s, rfl, h1, h2, h3, h4⟩)

theorem parseCoeffs_eq_none_iff (minv maxv : ℚ) :
    ∀ l : List Tok, parseCoeffs minv maxv l = none ↔ ∃ t ∈ l, numOf minv maxv t = none := by
  intro l
  induction l with
  | nil => simp [parseCoeffs]
  | cons t ts ih =>
    rw [parseCoeffs]
    cases hn : numOf minv maxv t with
    | none => simp [hn]
    | some v =>
      cases hp : parseCoeffs minv maxv ts with
      | none =>
        simp only [List.mem_cons]
        rw [hp] at ih
        constructor
        · intro _
          obtain ⟨t0, ht0, hn0⟩ := ih.mp rfl
          exact ⟨t0, Or.inr ht0, hn0⟩
        · intro _
          trivial
      | some vs =>
        rw [hp] at ih
        simp only [List.mem_cons]
        constructor
        · intro hc
          exact absurd hc (by simp)
        · rintro ⟨t0, ht0 | ht0, hn0⟩
          · rw [ht0, hn] at hn0
            exact absurd hn0 (by simp)
          · exact absurd (ih.mpr ⟨t0, ht0, hn0⟩) (by simp)

theorem readFold_absorb (minv maxv : ℚ) :
    ∀ (l : List (List Tok)) (st : ReadState), st.mode = LINE_MODE.READ_ERROR →
      l.foldl
        (fun st fs =>
          if st.mode = LINE_MODE.READ_ERROR then st else process_line minv maxv st fs)
        st = st := by
  intro l
  induction l with
  | nil => intro st _; rfl
  | cons fs l ih =>
    intro st h
    rw [List.foldl_cons, if_pos h]
    exact ih st h

/-- C9: `process_line` yields `READ_ERROR` on every detectable input
error — wrong field count for the current parse phase (one field for
the cols/rows lines, `cols+2` fields for a data row), a cols/rows count
that is non-numeric, non-integral or outside `1..32` / `1..128`, a
non-finite/non-numeric or out-of-bound coefficient or rhs, an
unrecognized sense token, or more data rows than declared — and once
any line errors, `bip_read` returns failure (`none`, C's `-1`),
returning before `bip_can_overflow` or `bip_preprocess` is invoked, so
no partially built model is passed downstream. -/
theorem claim_C9_read_errors :
    (∀ (minv maxv : ℚ) (st : ReadState) (fields : List Tok),
      (st.mode = LINE_MODE.READ_COLS ∨ st.mode = LINE_MODE.READ_ROWS) →
      fields.length ≠ 0 → fields.length ≠ 1 →
      (process_line minv maxv st fields).mode = LINE_MODE.READ_ERROR) ∧
    (∀ (minv maxv : ℚ) (st : ReadState) (fields : List Tok),
      st.mode = LINE_MODE.READ_COLS → fields.length = 1 →
      countOf 32 (fields.getD 0 (Tok.sym "")) = none →
      (process_line minv maxv st fields).mode = LINE_MODE.READ_ERROR) ∧
    (∀ (minv maxv : ℚ) (st : ReadState) (fields : List Tok),
      st.mode = LINE_MODE.READ_ROWS → fields.length = 1 →
      countOf 128 (fields.getD 0 (Tok.sym "")) = none →
      (process_line minv maxv st fields).mode = LINE_MODE.READ_ERROR) ∧
    (∀ (minv maxv : ℚ) (st : ReadState) (fields : List Tok),
      st.mode = LINE_MODE.READ_COEF → fields.length ≠ 0 → st.rows ≤ st.read_rows →
      (process_line minv maxv st fields).mode = LINE_MODE.READ_ERROR) ∧
    (∀ (minv maxv : ℚ) (st : ReadState) (fields : List Tok),
      st.mode = LINE_MODE.READ_COEF → fields.length ≠ 0 → st.read_rows < st.rows →
      fields.length ≠ st.cols + 2 →
      (process_line minv maxv st fields).mode = LINE_MODE.READ_ERROR) ∧
    (∀ (minv maxv : ℚ) (st : ReadState) (fields : List Tok),
      st.mode = LINE_MODE.READ_COEF → st.read_rows < st.rows →
      fields.length = st.cols + 2 →
      (parseCoeffs minv maxv (fields.take st.cols) = none ∨
        senseOf (fields.getD st.cols (Tok.sym "")) = none ∨
        numOf minv maxv (fields.getD (st.cols + 1) (Tok.sym "")) = none) →
      (process_line minv maxv st fields).mode = LINE_MODE.READ_ERROR) ∧
    (∀ (minv maxv : ℚ) (input : List (List Tok)) (i : ℕ), i < input.length →
      (process_line minv maxv (readFold minv maxv (input.take i)) (input.getD i [])).mode =
        LINE_MODE.READ_ERROR →
      bip_read minv maxv input = none) := by
  refine ⟨?_, ?_, ?_, ?_, ?_, ?_, ?_⟩
  · intro minv maxv st fields hmode h0 h1
    rcases hmode with hmode | hmode <;> simp [process_line, hmode, h0, h1]
  · intro minv maxv st fields hmode hlen hnone
    rw [List.getD_eq_getElem _ _ (by omega : 0 < fields.length)] at hnone
    simp [process_line, hmode, hlen, hnone]
  · intro minv maxv st fields hmode hlen hnone
    rw [List.getD_eq_getElem _ _ (by omega : 0 < fields.length)] at hnone
    simp [process_line, hmode, hlen, hnone]
  · intro minv maxv st fields hmode h0 hge
    simp [process_line, hmode, h0, hge]
  · intro minv maxv st fields hmode h0 hlt hlen
    simp [process_line, hmode, h0, (by omega : ¬ st.rows ≤ st.read_rows), hlen]
  · intro minv maxv st fields hmode hlt hlen hbad
    have h0 : fields.length ≠ 0 := by omega
    have hb1 : st.cols < fields.length := by omega
    have hb2 : st.cols + 1 < fields.length := by omega
    rw [List.getD_eq_getElem _ _ hb1, List.getD_eq_getElem _ _ hb2] at hbad
    rcases hbad with hbad | hbad | hbad
    · cases hsn : senseOf fields[st.cols] <;>
        cases hrhs : numOf minv maxv fields[st.cols + 1] <;>
          simp [process_line, hmode, h0, (by omega : ¬ st.rows ≤ st.read_rows), hlen,
            hbad, hsn, hrhs, List.getD_eq_getElem _ _ hb1, List.getD_eq_getElem _ _ hb2]
    · cases hco : parseCoeffs minv maxv (fields.take st.cols) <;>
        cases hrhs : numOf minv maxv fields[st.cols + 1] <;>
          simp [process_line, hmode, h0, (by omega : ¬ st.rows ≤ st.read_rows), hlen,
            hbad, hco, hrhs, List.getD_eq_getElem _ _ hb1, List.getD_eq_getElem _ _ hb2]
    · cases hco : parseCoeffs minv maxv (fields.take st.cols) <;>
        cases hsn : senseOf fields[st.cols] <;>
          simp [process_line, hmode, h0, (by omega : ¬ st.rows ≤ st.read_rows), hlen,
            hbad, hco, hsn, List.getD_eq_getElem _ _ hb1, List.getD_eq_getElem _ _ hb2]
  · intro minv maxv input i hi herr
    have hstep : readFold minv maxv (input.take (i + 1)) =
        (fun st fs =>
          if st.mode = LINE_MODE.READ_ERROR then st else process_line minv maxv st fs)
          (readFold minv maxv (input.take i)) (input.getD i []) := by
      rw [readFold, readFold, List.take_succ, List.foldl_append,
        List.getElem?_eq_getElem hi]
      rw [List.getD_eq_getElem _ _ hi]
      rfl
    have hmode1 : (readFold minv maxv (input.take (i + 1))).mode = LINE_MODE.READ_ERROR := by
      rw [hstep]
      rw [List.getD_eq_getElem?_getD] at herr
      by_cases hm : (readFold minv maxv (input.take i)).mode = LINE_MODE.READ_ERROR
      · simp [hm]
      · simp [hm, herr]
    have hfull : (readFold minv maxv input).mode = LINE_MODE.READ_ERROR := by
      have hsplit : input = input.take (i + 1) ++ input.drop (i + 1) :=
        (List.take_append_drop (i + 1) input).symm
      rw [readFold]
      conv_lhs => rw [hsplit]
      rw [List.foldl_append]
      rw [show List.foldl _ initReadState (input.take (i + 1)) =
        readFold minv maxv (input.take (i + 1)) from rfl]
      rw [readFold_absorb minv maxv _ _ hmode1]
      exact hmode1
    rw [bip_read, if_pos hfull]

theorem claim_C9_witness :
    (process_line 0 1 initReadState [Tok.num 3, Tok.num 4]).mode = LINE_MODE.READ_ERROR ∧
    bip_read 0 1 [[Tok.num 3, Tok.num 4]] = none :=
  ⟨claim_C9_read_errors.1 0 1 initReadState [Tok.num 3, Tok.num 4] (Or.inl rfl)
      (by decide) (by decide),
    claim_C9_read_errors.2.2.2.2.2.2 0 1 [[Tok.num 3, Tok.num 4]] 0 (by decide)
      (claim_C9_read_errors.1 0 1 initReadState [Tok.num 3, Tok.num 4] (Or.inl rfl)
        (by decide) (by decide))⟩

/-! ### Feasibility oracle claims -/

theorem takeWhile_length_le {α : Type} (p : α → Bool) :
    ∀ l : List α, (l.takeWhile p).length ≤ l.length := by
  intro l
  induction l with
  | nil => simp
  | cons a l ih =>
    by_cases hpa : p a
    · rw [List.takeWhile_cons_of_pos hpa]
      simpa using ih
    · rw [List.takeWhile_cons_of_neg hpa]
      simp

theorem takeWhile_length_eq_iff {α : Type} (p : α → Bool) :
    ∀ l : List α, ((l.takeWhile p).length = l.length ↔ ∀ a ∈ l, p a = true) := by
  intro l
  induction l with
  | nil => simp
  | cons a l ih =>
    by_cases hpa : p a
    · rw [List.takeWhile_cons_of_pos hpa]
      simp only [List.length_cons, Nat.add_right_cancel_iff, ih, List.mem_cons]
      constructor
      · intro hall b hb
        rcases hb with rfl | hb
        · exact hpa
        · exact hall b hb
      · intro hall b hb
        exact hall b (Or.inr hb)
    · rw [List.takeWhile_cons_of_neg hpa]
      simp only [List.length_nil, List.length_cons, List.mem_cons]
      constructor
      · intro hlen
        omega
      · intro hall
        exact absurd (hall a (Or.inl rfl)) hpa

/-- Unfolded form of `check_feasibility` (pure zeta reduction of its lets). -/
theorem check_feasibility_unfold (equs rows : ℕ) (s : List ℚ) :
    check_feasibility equs rows s =
      if (if ((List.range equs).takeWhile (fun k => decide (s.getD k 0 = 0))).length = equs
          then equs +
            ((List.range' equs (rows - equs)).takeWhile (fun k => decide (s.getD k 0 ≤ 0))).length
          else ((List.range equs).takeWhile (fun k => decide (s.getD k 0 = 0))).length) < rows
      then 0 else 1 := rfl

theorem eq_scan_iff (equs : ℕ) (s : List ℚ) :
    ((List.range equs).takeWhile (fun k => decide (s.getD k 0 = 0))).length = equs ↔
      ∀ k < equs, s.getD k 0 = 0 := by
  have h := takeWhile_length_eq_iff (fun k => decide (s.getD k 0 = 0)) (List.range equs)
  rw [List.length_range] at h
  rw [h]
  constructor
  · intro hall k hk
    simpa using hall k (List.mem_range.mpr hk)
  · intro hall k hk
    rw [decide_eq_true_eq]
    exact hall k (List.mem_range.mp hk)

theorem le_scan_iff (equs rows : ℕ) (h : equs ≤ rows) (s : List ℚ) :
    ((List.range' equs (rows - equs)).takeWhile (fun k => decide (s.getD k 0 ≤ 0))).length =
        rows - equs ↔
      ∀ k, equs ≤ k → k < rows → s.getD k 0 ≤ 0 := by
  have h2 := takeWhile_length_eq_iff (fun k => decide (s.getD k 0 ≤ 0))
    (List.range' equs (rows - equs))
  rw [List.length_range'] at h2
  rw [h2]
  constructor
  · intro hall k hk1 hk2
    have hkmem : k ∈ List.range' equs (rows - equs) := by
      rw [List.mem_range']
      exact ⟨k - equs, by omega, by omega⟩
    simpa using hall k hkmem
  · intro hall k hk
    rw [List.mem_range'] at hk
    obtain ⟨i, hi, hk⟩ := hk
    subst hk
    rw [decide_eq_true_eq]
    exact hall (equs + 1 * i) (by omega) (by omega)

/-- C7: `check_feasibility` classifies the assignment as feasible
(returns 1) iff every equality residual `r[k]`, `k < equs`, is exactly
zero and every inequality residual `r[k]`, `equs ≤ k < rows`, is `≤ 0`.
Moreover, on a nonzero equality residual it rejects without examining
any inequality residual: the result is 0 for every residual list that
agrees on the equality rows, whatever its inequality entries.  (The
embedding is a pure function of `equs`, `rows` and `r`: it mutates
neither the residual list nor the model.) -/
theorem claim_C7_check_feasibility (equs rows : ℕ) (r : List ℚ) (h : equs ≤ rows) :
    (check_feasibility equs rows r = 1 ↔
      (∀ k < equs, r.getD k 0 = 0) ∧ (∀ k, equs ≤ k → k < rows → r.getD k 0 ≤ 0)) ∧
    ((∃ k < equs, r.getD k 0 ≠ 0) →
      ∀ r' : List ℚ, (∀ k < equs, r'.getD k 0 = r.getD k 0) →
        check_feasibility equs rows r' = 0) := by
  constructor
  · rw [check_feasibility_unfold]
    by_cases hc1 : ((List.range equs).takeWhile (fun k => decide (r.getD k 0 = 0))).length = equs
    · rw [if_pos hc1]
      have hA := (eq_scan_iff equs r).mp hc1
      have hlen2 := takeWhile_length_le (fun k => decide (r.getD k 0 ≤ 0))
        (List.range' equs (rows - equs))
      rw [List.length_range'] at hlen2
      by_cases hc2 : ((List.range' equs (rows - equs)).takeWhile
          (fun k => decide (r.getD k 0 ≤ 0))).length = rows - equs
      · rw [if_neg (by omega)]
        exact ⟨fun _ => ⟨hA, (le_scan_iff equs rows h r).mp hc2⟩, fun _ => rfl⟩
      · rw [if_pos (by omega)]
        constructor
        · intro h01
          exact absurd h01 (by norm_num)
        · rintro ⟨-, hB⟩
          exact absurd ((le_scan_iff equs rows h r).mpr hB) hc2
    · have hlt : ((List.range equs).takeWhile (fun k => decide (r.getD k 0 = 0))).length < equs := by
        have := takeWhile_length_le (fun k => decide (r.getD k 0 = 0)) (List.range equs)
        rw [List.length_range] at this
        omega
      rw [if_neg hc1, if_pos (by omega)]
      constructor
      · intro h01
        exact absurd h01 (by norm_num)
      · rintro ⟨hA, -⟩
        exact absurd ((eq_scan_iff equs r).mpr hA) hc1
  · rintro ⟨k, hk, hknz⟩ r' hagree
    have hnA : ¬ ∀ k < equs, r'.getD k 0 = 0 := by
      intro hall
      apply hknz
      rw [← hagree k hk]
      exact hall k hk
    have hc1 : ((List.range equs).takeWhile (fun k => decide (r'.getD k 0 = 0))).length ≠ equs :=
      fun hc => hnA ((eq_scan_iff equs r').mp hc)
    have hle : ((List.range equs).takeWhile (fun k => decide (r'.getD k 0 = 0))).length ≤ equs := by
      have := takeWhile_length_le (fun k => decide (r'.getD k 0 = 0)) (List.range equs)
      rw [List.length_range] at this
      exact this
    rw [check_feasibility_unfold, if_neg hc1, if_pos (by omega)]

theorem claim_C7_witness :
    (check_feasibility 1 2 [0, -3] = 1 ↔
      (∀ k < 1, ([0, -3] : List ℚ).getD k 0 = 0) ∧
      (∀ k, 1 ≤ k → k < 2 → ([0, -3] : List ℚ).getD k 0 ≤ 0)) ∧
    ((∃ k < 1, ([0, -3] : List ℚ).getD k 0 ≠ 0) →
      ∀ r' : List ℚ, (∀ k < 1, r'.getD k 0 = ([0, -3] : List ℚ).getD k 0) →
        check_feasibility 1 2 r' = 0) :=
  claim_C7_check_feasibility 1 2 [0, -3] (by decide)

theorem claim_C10_witness :
    ((bip_enumerate_trace exampleBip).map Prod.fst).getD 1 0 = 1 ^^^ (1 >>> 1) ∧
    (0 < 1 → ∃ j,
      ((bip_enumerate_trace exampleBip).map Prod.fst).getD 1 0 ^^^
          ((bip_enumerate_trace exampleBip).map Prod.fst).getD (1 - 1) 0 = 2 ^ j ∧
      (1 : ℕ).testBit j = true ∧ ∀ i < j, (1 : ℕ).testBit i = false) :=
  claim_C10_gray_sequence exampleBip (by decide) (by decide) (by decide) 1 (by decide)

end BipC
